import Mathlib

/-!
Verification development for the `beet_smart_cutoff` repository.

The Rust sources are shallowly embedded: Rust strings are modeled as lists of
characters (`List Char`).  The date region of each catalog line is documented
in `src/lib.rs` as ASCII, so byte indexing in the source and character indexing
in the model coincide on the inputs the program is written for.  Fallible Rust
functions returning `anyhow::Result` are modeled with `Except`, carrying a
structured error value in place of the formatted message where the message
content matters.

The repository holds two revisions of the `BeetCommand` component: one inline
in `src/main.rs` (the binary) and one in `src/beet_command.rs` (the library).
Both are embedded, with `Main` and `Lib` suffixes, where they differ.
-/

namespace BeetSmart

deriving instance DecidableEq for Except

/-- One catalog record, from `struct DateEntry` in `src/lib.rs`
(identical in `src/main.rs`). -/
structure DateEntry where
  date : List Char
  entry : List Char
deriving DecidableEq, Repr

/-- `DateEntry::try_from` (src/lib.rs, src/main.rs): a line parses when
`ENTRY_START (= 20) < s.len()`; the date is the first `DATE_LENGTH (= 10)`
characters and the entry starts at offset 20.  Shorter lines fail with an
`entry too short` message carrying the line. -/
def DateEntry.tryFrom (s : List Char) : Except (List Char) DateEntry :=
  if 20 < s.length then
    .ok { date := s.take 10, entry := s.drop 20 }
  else
    .error ("entry too short: ".data ++ s)

/-- `struct Transition` (src/lib.rs, src/main.rs): the borrowed entries are
stored by value in the model. -/
structure Transition where
  index : Nat
  included : DateEntry
  excluded : DateEntry
deriving DecidableEq, Repr

/-- The 1-based rank displayed for a transition: `count = index + 1`
(the `Display` impl in src/lib.rs and src/main.rs). -/
def Transition.rank (t : Transition) : Nat := t.index + 1

/-- `items.windows(2)` on a slice, as the list of consecutive pairs. -/
def windows2 (items : List DateEntry) : List (DateEntry × DateEntry) :=
  items.zip items.tail

/-- The closure passed to `find_map` in `find_transition`: a window yields a
`Transition` exactly when the two dates differ. -/
def transitionStep (x : Nat × DateEntry × DateEntry) : Option Transition :=
  if x.2.1.date ≠ x.2.2.date then some ⟨x.1, x.2.1, x.2.2⟩ else none

/-- `find_transition` (src/lib.rs, identical in src/main.rs):
`items.windows(2).enumerate().skip(target_count).find_map(..)`. -/
def find_transition (items : List DateEntry) (target_count : Nat) : Option Transition :=
  (((windows2 items).enum).drop target_count).findSome? transitionStep

/-- The consecutive pair of entries at 0-based position `i`, when both exist. -/
def pairAt (items : List DateEntry) (i : Nat) : Option (DateEntry × DateEntry) :=
  match items[i]?, items[i + 1]? with
  | some a, some b => some (a, b)
  | _, _ => none

theorem getElem?_zip_eq (l₁ : List DateEntry) (l₂ : List DateEntry) (i : Nat) :
    (l₁.zip l₂)[i]? =
      match l₁[i]?, l₂[i]? with
      | some a, some b => some (a, b)
      | _, _ => none := by
  induction l₁ generalizing l₂ i with
  | nil => simp
  | cons a as ih =>
    cases l₂ with
    | nil => simp
    | cons b bs =>
      cases i with
      | zero => simp [List.zip_cons_cons]
      | succ j => simpa [List.zip_cons_cons] using ih bs j

theorem windows2_getElem (items : List DateEntry) (i : Nat) :
    (windows2 items)[i]? = pairAt items i := by
  rw [windows2, pairAt, getElem?_zip_eq, List.getElem?_tail]

theorem windowsEnumDrop_getElem (items : List DateEntry) (r j : Nat) :
    ((windows2 items).enum.drop r)[j]? =
      (pairAt items (r + j)).map (fun p => (r + j, p)) := by
  rw [List.getElem?_drop, List.getElem?_enum, windows2_getElem]

/-- First-hit characterization of `List.findSome?`. -/
theorem findSome?_eq_some_iff_first {α β : Type} (f : α → Option β) (l : List α) (b : β) :
    l.findSome? f = some b ↔
      ∃ (j : Nat) (x : α), l[j]? = some x ∧ f x = some b ∧
        (∀ (k : Nat) (y : α), k < j → l[k]? = some y → f y = none) := by
  induction l with
  | nil =>
    constructor
    · intro h; exact absurd h (by simp)
    · rintro ⟨j, x, hget, -, -⟩; simp at hget
  | cons a as ih =>
    rw [List.findSome?_cons]
    cases hfa : f a with
    | some c =>
      simp only []
      constructor
      · intro h
        refine ⟨0, a, by simp, ?_, ?_⟩
        · rw [hfa]; exact h
        · intro k y hk _; omega
      · rintro ⟨j, x, hget, hfx, hmin⟩
        cases j with
        | zero =>
          simp only [List.getElem?_cons_zero, Option.some.injEq] at hget
          subst hget
          rw [hfa] at hfx
          exact hfx
        | succ j =>
          have := hmin 0 a (Nat.succ_pos j) (by simp)
          rw [hfa] at this
          exact absurd this (by simp)
    | none =>
      simp only []
      rw [ih]
      constructor
      · rintro ⟨j, x, hget, hfx, hmin⟩
        refine ⟨j + 1, x, by simpa using hget, hfx, ?_⟩
        intro k y hk hky
        cases k with
        | zero =>
          simp only [List.getElem?_cons_zero, Option.some.injEq] at hky
          subst hky; exact hfa
        | succ k =>
          exact hmin k y (by omega) (by simpa using hky)
      · rintro ⟨j, x, hget, hfx, hmin⟩
        cases j with
        | zero =>
          simp only [List.getElem?_cons_zero, Option.some.injEq] at hget
          subst hget
          rw [hfa] at hfx
          exact absurd hfx (by simp)
        | succ j =>
          refine ⟨j, x, by simpa using hget, hfx, ?_⟩
          intro k y hk hky
          exact hmin (k + 1) y (by omega) (by simpa using hky)

theorem pairAt_eq_some_iff (items : List DateEntry) (i : Nat) (a b : DateEntry) :
    pairAt items i = some (a, b) ↔ items[i]? = some a ∧ items[i + 1]? = some b := by
  unfold pairAt
  cases items[i]? <;> cases items[i + 1]? <;> simp_all

theorem pairAt_isSome_bound (items : List DateEntry) (i : Nat) (a b : DateEntry)
    (h : pairAt items i = some (a, b)) : i + 1 < items.length := by
  have h2 := ((pairAt_eq_some_iff items i a b).mp h).2
  rw [List.getElem?_eq_some] at h2
  exact h2.1

theorem transitionStep_eq_some_iff (x : Nat × DateEntry × DateEntry) (t : Transition) :
    transitionStep x = some t ↔
      x.2.1.date ≠ x.2.2.date ∧ t = ⟨x.1, x.2.1, x.2.2⟩ := by
  unfold transitionStep
  by_cases hd : x.2.1.date ≠ x.2.2.date
  · rw [if_pos hd]
    simp only [Option.some.injEq]
    constructor
    · intro h; exact ⟨hd, h.symm⟩
    · intro h; exact h.2.symm
  · simp [hd]

theorem transitionStep_eq_none_iff (x : Nat × DateEntry × DateEntry) :
    transitionStep x = none ↔ x.2.1.date = x.2.2.date := by
  unfold transitionStep
  by_cases hd : x.2.1.date = x.2.2.date <;> simp [hd]

theorem find_transition_eq_some_iff (items : List DateEntry) (r : Nat) (t : Transition) :
    find_transition items r = some t ↔
      (r ≤ t.index ∧ pairAt items t.index = some (t.included, t.excluded) ∧
       t.included.date ≠ t.excluded.date ∧
       ∀ (i : Nat) (a b : DateEntry), r ≤ i → i < t.index →
         pairAt items i = some (a, b) → a.date = b.date) := by
  rw [find_transition, findSome?_eq_some_iff_first]
  constructor
  · rintro ⟨j, x, hget, hstep, hmin⟩
    rw [windowsEnumDrop_getElem] at hget
    cases hpair : pairAt items (r + j) with
    | none => rw [hpair] at hget; simp at hget
    | some p =>
      rw [hpair] at hget
      simp only [Option.map_some', Option.some.injEq] at hget
      subst hget
      rw [transitionStep_eq_some_iff] at hstep
      obtain ⟨hd, ht⟩ := hstep
      subst ht
      dsimp only
      refine ⟨by omega, ?_, hd, ?_⟩
      · exact hpair
      · intro i a b hri hit hpi
        have hk : i - r < j := by omega
        have hgot : ((windows2 items).enum.drop r)[i - r]? = some (i, (a, b)) := by
          rw [windowsEnumDrop_getElem]
          have hir : r + (i - r) = i := by omega
          rw [hir, hpi]
          rfl
        have := hmin (i - r) (i, (a, b)) hk hgot
        rw [transitionStep_eq_none_iff] at this
        exact this
  · rintro ⟨hr, hpair, hd, hmin⟩
    refine ⟨t.index - r, (t.index, (t.included, t.excluded)), ?_, ?_, ?_⟩
    · rw [windowsEnumDrop_getElem]
      have hir : r + (t.index - r) = t.index := by omega
      rw [hir, hpair]
      rfl
    · rw [transitionStep_eq_some_iff]
      exact ⟨hd, rfl⟩
    · intro k y hk hky
      rw [windowsEnumDrop_getElem] at hky
      cases hpk : pairAt items (r + k) with
      | none => rw [hpk] at hky; simp at hky
      | some p =>
        rw [hpk] at hky
        simp only [Option.map_some', Option.some.injEq] at hky
        subst hky
        rw [transitionStep_eq_none_iff]
        exact hmin (r + k) p.1 p.2 (by omega) (by omega) hpk

theorem find_transition_eq_none_iff (items : List DateEntry) (r : Nat) :
    find_transition items r = none ↔
      ∀ (i : Nat) (a b : DateEntry), r ≤ i → pairAt items i = some (a, b) →
        a.date = b.date := by
  rw [find_transition, List.findSome?_eq_none_iff]
  constructor
  · intro h i a b hri hpair
    have hmem : (i, (a, b)) ∈ (windows2 items).enum.drop r := by
      rw [List.mem_iff_getElem?]
      refine ⟨i - r, ?_⟩
      rw [windowsEnumDrop_getElem]
      have hir : r + (i - r) = i := by omega
      rw [hir, hpair]
      rfl
    have := h _ hmem
    rw [transitionStep_eq_none_iff] at this
    exact this
  · intro h x hmem
    rw [List.mem_iff_getElem?] at hmem
    obtain ⟨j, hj⟩ := hmem
    rw [windowsEnumDrop_getElem] at hj
    cases hpk : pairAt items (r + j) with
    | none => rw [hpk] at hj; simp at hj
    | some p =>
      rw [hpk] at hj
      simp only [Option.map_some', Option.some.injEq] at hj
      subst hj
      rw [transitionStep_eq_none_iff]
      exact h (r + j) p.1 p.2 (by omega) hpk

/-- Sample entries with pairwise distinct dates, used by concrete witnesses. -/
def entryA : DateEntry := ⟨"a".data, "x".data⟩

def entryB : DateEntry := ⟨"b".data, "y".data⟩

def entryC : DateEntry := ⟨"c".data, "z".data⟩

def sampleEntries : List DateEntry := [entryA, entryB, entryC]

/-- C4: for every entry list and target rank `r`, `find_transition` returns the
first consecutive pair at position `≥ r` whose dates differ, packaged with
1-based rank equal to the pair index plus one, and returns `none` (not an
error) exactly when the list has fewer than `r + 2` entries or no differing
pair exists at or after position `r`. -/
theorem find_transition_first_pair_spec (items : List DateEntry) (r : Nat) :
    (∀ t : Transition, find_transition items r = some t ↔
        (r ≤ t.index ∧ pairAt items t.index = some (t.included, t.excluded) ∧
         t.included.date ≠ t.excluded.date ∧ t.rank = t.index + 1 ∧
         ∀ (i : Nat) (a b : DateEntry), r ≤ i → i < t.index →
           pairAt items i = some (a, b) → a.date = b.date)) ∧
    (find_transition items r = none ↔
      (items.length < r + 2 ∨
        ∀ (i : Nat) (a b : DateEntry), r ≤ i → pairAt items i = some (a, b) →
          a.date = b.date)) := by
  constructor
  · intro t
    rw [find_transition_eq_some_iff]
    constructor
    · rintro ⟨h1, h2, h3, h4⟩
      exact ⟨h1, h2, h3, rfl, h4⟩
    · rintro ⟨h1, h2, h3, -, h4⟩
      exact ⟨h1, h2, h3, h4⟩
  · rw [find_transition_eq_none_iff]
    constructor
    · intro h
      exact Or.inr h
    · rintro (hlen | h)
      · intro i a b hri hpair
        have := pairAt_isSome_bound items i a b hpair
        omega
      · exact h

/-- Witness for C4 on a concrete list: the characterization applied at
`sampleEntries` and target `0` produces the transition at index `0`. -/
theorem find_transition_first_pair_spec_witness :
    find_transition sampleEntries 0 = some ⟨0, entryA, entryB⟩ :=
  ((find_transition_first_pair_spec sampleEntries 0).1 ⟨0, entryA, entryB⟩).mpr
    ⟨Nat.le_refl 0, by decide, by decide, rfl,
     fun _ _ _ _ h2 _ => absurd h2 (Nat.not_lt_zero _)⟩

/-- C6: every transition returned by `find_transition` has differing dates and
its excluded entry is the entry immediately following the included entry in
the list. -/
theorem transition_dates_differ (items : List DateEntry) (r : Nat) (t : Transition)
    (h : find_transition items r = some t) :
    t.included.date ≠ t.excluded.date ∧
    items[t.index]? = some t.included ∧ items[t.index + 1]? = some t.excluded := by
  have hc := (find_transition_eq_some_iff items r t).mp h
  have hp := (pairAt_eq_some_iff items t.index t.included t.excluded).mp hc.2.1
  exact ⟨hc.2.2.1, hp.1, hp.2⟩

/-- Witness for C6 at a concrete input. -/
theorem transition_dates_differ_witness :
    entryA.date ≠ entryB.date ∧
    sampleEntries[(0 : Nat)]? = some entryA ∧
    sampleEntries[(0 : Nat) + 1]? = some entryB :=
  transition_dates_differ sampleEntries 0 ⟨0, entryA, entryB⟩ (by decide)

/-- C7: `find_transition` is monotone in the target rank: if `a < b` and both
targets yield a transition, the transition found for `a` has 1-based rank at
most that of the transition found for `b`. -/
theorem find_transition_monotone (items : List DateEntry) (a b : Nat)
    (ta tb : Transition) (hab : a < b)
    (ha : find_transition items a = some ta) (hb : find_transition items b = some tb) :
    ta.rank ≤ tb.rank := by
  have hca := (find_transition_eq_some_iff items a ta).mp ha
  have hcb := (find_transition_eq_some_iff items b tb).mp hb
  rw [Transition.rank, Transition.rank]
  by_contra hlt
  have hba : tb.index < ta.index := by omega
  have heq := hca.2.2.2 tb.index tb.included tb.excluded (by omega) hba hcb.2.1
  exact hcb.2.2.1 heq

/-- Witness for C7 at a concrete input. -/
theorem find_transition_monotone_witness :
    Transition.rank ⟨0, entryA, entryB⟩ ≤ Transition.rank ⟨1, entryB, entryC⟩ :=
  find_transition_monotone sampleEntries 0 1 ⟨0, entryA, entryB⟩ ⟨1, entryB, entryC⟩
    (by omega) (by decide) (by decide)

/-- One outcome per target count in the Evaluating step of `select_end`
(src/main.rs): a visible skip notice, an out-of-range notice, or an accepted
transition pushed onto the presented list. -/
inductive EvalEvent where
  | skipped (target : Nat)
  | outOfRange (target : Nat)
  | found (tr : Transition)
deriving DecidableEq, Repr

/-- The skip test in `select_end`:
`prev_index.is_some_and(|prev_index| prev_index >= target_count)`. -/
def prevIndexSkips (prev : Option Nat) (target : Nat) : Bool :=
  match prev with
  | some p => target ≤ p
  | none => false

/-- The Evaluating fold of `select_end` (src/main.rs): `prev` carries
`prev_index`, the 0-based index of the immediately preceding accepted
transition (`None` before the first acceptance); it is updated only when the
finder returns a transition. -/
def evalTargetsAux (entries : List DateEntry) (prev : Option Nat) :
    List Nat → List EvalEvent
  | [] => []
  | t :: rest =>
    if prevIndexSkips prev t then
      .skipped t :: evalTargetsAux entries prev rest
    else
      match find_transition entries t with
      | some tr => .found tr :: evalTargetsAux entries (some tr.index) rest
      | none => .outOfRange t :: evalTargetsAux entries prev rest

/-- The Evaluating step over a full target list, starting with no previously
accepted transition. -/
def evalTargets (entries : List DateEntry) (targets : List Nat) : List EvalEvent :=
  evalTargetsAux entries none targets

/-- Claim C3 as stated: a target rank is skipped exactly when it is `≤` the
1-based rank (`index + 1`) of the immediately preceding accepted transition.
`prev` holds that transition's 0-based index, as maintained by
`evalTargetsAux`. -/
def claimC3 : Prop :=
  ∀ (entries : List DateEntry) (prev : Option Nat) (t : Nat) (rest : List Nat),
    (evalTargetsAux entries prev (t :: rest)).head? = some (.skipped t) ↔
      ∃ p, prev = some p ∧ t ≤ p + 1

/-- C3 fails on the code: running the Evaluating step on three entries with
pairwise distinct dates and targets `[0, 1]`, the first target is accepted with
0-based index 0, i.e. 1-based rank 1; the second target `1` is `≤` that rank,
so C3 predicts it is skipped — but the code only skips when the target is `≤`
the 0-based index, so the finder is invoked and accepts a second transition. -/
theorem claimC3_counterexample :
    ¬ claimC3 ∧
    evalTargets sampleEntries [0, 1] =
      [.found ⟨0, entryA, entryB⟩, .found ⟨1, entryB, entryC⟩] := by
  constructor
  · intro h
    have h1 := (h sampleEntries (some 0) 1 []).mpr ⟨0, rfl, by omega⟩
    revert h1
    decide
  · decide

/-- C3 amended: in the Evaluating step a target rank is skipped (with a
visible notice, no finder call) exactly when it is `≤` the 0-based index of
the immediately preceding accepted transition — equivalently, strictly below
that transition's 1-based rank; otherwise the transition finder is invoked for
it, giving a `found` event on success and an `outOfRange` notice on `none`. -/
theorem evalTargets_skip_iff (entries : List DateEntry) (prev : Option Nat)
    (t : Nat) (rest : List Nat) :
    ((evalTargetsAux entries prev (t :: rest)).head? = some (.skipped t) ↔
       ∃ p, prev = some p ∧ t ≤ p) ∧
    ((∀ p, prev = some p → p < t) →
       (evalTargetsAux entries prev (t :: rest)).head? =
         some (match find_transition entries t with
               | some tr => .found tr
               | none => .outOfRange t)) := by
  have hskip : prevIndexSkips prev t = true ↔ ∃ p, prev = some p ∧ t ≤ p := by
    cases prev with
    | none => simp [prevIndexSkips]
    | some p => simp [prevIndexSkips]
  constructor
  · rw [evalTargetsAux]
    by_cases hb : prevIndexSkips prev t = true
    · rw [if_pos hb]
      constructor
      · intro _
        exact hskip.mp hb
      · intro _
        rfl
    · rw [if_neg hb]
      have hns : ¬ ∃ p, prev = some p ∧ t ≤ p := fun hc => hb (hskip.mpr hc)
      cases hft : find_transition entries t <;> simp [hns]
  · intro hlt
    have hb : ¬ prevIndexSkips prev t = true := by
      intro hc
      obtain ⟨p, hp, htp⟩ := hskip.mp hc
      exact absurd (hlt p hp) (by omega)
    rw [evalTargetsAux, if_neg hb]
    cases hft : find_transition entries t <;> simp [hft]

/-- Witness for the amended C3 at concrete inputs: with a preceding accepted
transition of index 5, the target 3 is skipped. -/
theorem evalTargets_skip_iff_witness :
    (evalTargetsAux sampleEntries (some 5) (3 :: [])).head? =
      some (.skipped 3) :=
  (evalTargets_skip_iff sampleEntries (some 5) 3 []).1.mpr ⟨5, rfl, by omega⟩

/-- Rust `usize::from_str`: an optional leading plus sign, then at least one
ASCII digit; the value must fit the integer width (usize modeled as 64 bits,
larger values overflow and fail to parse). -/
def parseUsize (s : List Char) : Option Nat :=
  let digits :=
    match s with
    | '+' :: rest => rest
    | _ => s
  if digits = [] then none
  else if digits.all Char.isDigit then
    let n := digits.foldl (fun a c => a * 10 + (c.toNat - 48)) 0
    if n < 2 ^ 64 then some n else none
  else none

/-- Rust `NonZeroUsize::from_str`: parse as `usize`, then reject zero. -/
def parseNonZeroUsize (s : List Char) : Option Nat :=
  match parseUsize s with
  | some n => if n = 0 then none else some n
  | none => none

/-- `enum Command` (src/main.rs). -/
inductive Command where
  | quit
  | custom
  | number (n : Nat)
  | empty
deriving DecidableEq, Repr

/-- The error of `Command::from_str`: the structured content of
`unrecognized command` together with the (lowercased) input it reports. -/
inductive CommandErr where
  | unrecognized (input : List Char)
deriving DecidableEq, Repr

/-- `Command::from_str` (src/main.rs): match on the lowercased input —
`q`/`quit`/`exit` → Quit, `c`/`custom` → Custom, the empty string → Empty;
anything else is parsed as a `NonZeroUsize`, failing with
`unrecognized command` carrying the lowercased input (the `input` binder of
the Rust match is the lowercased string).  `to_lowercase` is modeled per
character; the command keywords are ASCII. -/
def Command.fromStr (s : List Char) : Except CommandErr Command :=
  let lower := s.map Char.toLower
  if lower = "q".data ∨ lower = "quit".data ∨ lower = "exit".data then .ok .quit
  else if lower = "c".data ∨ lower = "custom".data then .ok .custom
  else if lower = [] then .ok .empty
  else
    match parseNonZeroUsize lower with
    | some n => .ok (.number n)
    | none => .error (.unrecognized lower)

/-- Rust `str::split_whitespace` (ASCII whitespace model): maximal runs of
non-whitespace characters, in order, with no empty tokens.  `cur` accumulates
the current token in reverse. -/
def splitWhitespaceAux (cur : List Char) : List Char → List (List Char)
  | [] => if cur = [] then [] else [cur.reverse]
  | c :: rest =>
    if c.isWhitespace then
      if cur = [] then splitWhitespaceAux [] rest
      else cur.reverse :: splitWhitespaceAux [] rest
    else splitWhitespaceAux (c :: cur) rest

def splitWhitespace (s : List Char) : List (List Char) :=
  splitWhitespaceAux [] s

/-- Collecting an iterator of Rust `Result`s into `Result<Vec<_>>`: the value
list when every element succeeds, otherwise the first error. -/
def mapExcept {α β ε : Type} (f : α → Except ε β) : List α → Except ε (List β)
  | [] => .ok []
  | a :: as =>
    match f a with
    | .error e => .error e
    | .ok b =>
      match mapExcept f as with
      | .error e => .error e
      | .ok bs => .ok (b :: bs)

theorem mapExcept_error_of_mem {α β ε : Type} (f : α → Except ε β) (l : List α)
    (a : α) (e : ε) (ha : a ∈ l) (hf : f a = .error e) :
    ∃ e2, mapExcept f l = .error e2 := by
  induction l with
  | nil => cases ha
  | cons b bs ih =>
    cases hfb : f b with
    | error e2 => exact ⟨e2, by simp [mapExcept, hfb]⟩
    | ok v =>
      rcases List.mem_cons.mp ha with rfl | hmem
      · rw [hfb] at hf
        cases hf
      · obtain ⟨e2, h2⟩ := ih hmem
        exact ⟨e2, by simp [mapExcept, hfb, h2]⟩

theorem mapExcept_append_error {α β ε : Type} (f : α → Except ε β)
    (pre : List α) (a : α) (post : List α) (e : ε)
    (hpre : ∀ t ∈ pre, ∃ b, f t = .ok b) (hf : f a = .error e) :
    mapExcept f (pre ++ a :: post) = .error e := by
  induction pre with
  | nil => simp [mapExcept, hf]
  | cons p ps ih =>
    obtain ⟨b, hb⟩ := hpre p (by simp)
    have hrest := ih (fun t ht => hpre t (List.mem_cons_of_mem _ ht))
    simp [mapExcept, hb, hrest]

theorem mapExcept_eq_ok_iff {α β ε : Type} (f : α → Except ε β) (l : List α)
    (l2 : List β) :
    mapExcept f l = .ok l2 ↔ List.Forall₂ (fun a b => f a = .ok b) l l2 := by
  induction l generalizing l2 with
  | nil =>
    constructor
    · intro h
      injection h with h2
      subst h2
      exact .nil
    · intro h
      cases h
      rfl
  | cons a as ih =>
    constructor
    · intro h
      unfold mapExcept at h
      cases hfa : f a with
      | error e => rw [hfa] at h; cases h
      | ok b =>
        rw [hfa] at h
        cases hrest : mapExcept f as with
        | error e => rw [hrest] at h; cases h
        | ok bs =>
          rw [hrest] at h
          injection h with h2
          subst h2
          exact .cons hfa ((ih bs).mp hrest)
    · intro h
      cases h with
      | cons hab hrest =>
        unfold mapExcept
        rw [hab, (ih _).mpr hrest]

/-- The error of the custom-ranks closure in `prompt_user_selection`
(src/main.rs): either the integer parse failure of a token, or the structured
content of the message
`[number] exceeds max_entries ([max_entries]) command-line argument`, which
names the offending value and the configured bound. -/
inductive CustomErr where
  | parseFail (token : List Char)
  | exceedsMax (number maxEntries : Nat)
deriving DecidableEq, Repr

/-- The per-token closure of the custom-ranks entry:
`let number = token.parse()?;` then bail when `number > max_entries`. -/
def parseTargetToken (maxEntries : Nat) (token : List Char) : Except CustomErr Nat :=
  match parseUsize token with
  | none => .error (.parseFail token)
  | some number =>
    if number > maxEntries then .error (.exceedsMax number maxEntries)
    else .ok number

/-- The custom-ranks entry of `prompt_user_selection`: split the line on
whitespace, parse every token, and collect into one Result (first failure
wins, as Rust `collect::<Result<_, _>>` short-circuits). -/
def parseCustomTargets (line : List Char) (maxEntries : Nat) :
    Except CustomErr (List Nat) :=
  mapExcept (parseTargetToken maxEntries) (splitWhitespace line)

theorem parseTargetToken_eq_ok_iff (maxEntries : Nat) (token : List Char) (n : Nat) :
    parseTargetToken maxEntries token = .ok n ↔
      parseUsize token = some n ∧ n ≤ maxEntries := by
  unfold parseTargetToken
  cases hp : parseUsize token with
  | none => simp
  | some m =>
    dsimp only
    by_cases hm : m > maxEntries
    · rw [if_pos hm]
      constructor
      · intro h; cases h
      · rintro ⟨h1, h2⟩
        injection h1 with h1
        omega
    · rw [if_neg hm]
      constructor
      · intro h
        injection h with h1
        subst h1
        exact ⟨rfl, by omega⟩
      · rintro ⟨h1, -⟩
        injection h1 with h1
        rw [h1]

/-- `enum UserSelection` (src/main.rs), entries stored by value. -/
inductive UserSelection where
  | entry (e : DateEntry)
  | newCounts (counts : List Nat)
deriving DecidableEq, Repr

/-- The two kinds of prompt a script line can answer. -/
inductive PromptMode where
  | command
  | customRanks
deriving DecidableEq, Repr

/-- The body of the `loop` in `prompt_user_selection`, one consumed input line
per step.  In `command` mode the line is the answer to the main selection
prompt; in `customRanks` mode it is the answer to the custom-ranks sub-prompt
issued right after a Custom command.  An invalid custom line and an
out-of-range number print a notice and continue the loop in `command` mode. -/
def promptLoop (transitions : List Transition) (maxEntries : Nat)
    (mode : PromptMode) :
    List (List Char) → Option (Except CommandErr (Option UserSelection))
  | [] => none
  | line :: rest =>
    match mode with
    | .customRanks =>
      match parseCustomTargets line maxEntries with
      | .ok newCounts => some (.ok (some (.newCounts newCounts)))
      | .error _ => promptLoop transitions maxEntries .command rest
    | .command =>
      match Command.fromStr line with
      | .error e => some (.error e)
      | .ok .quit => some (.ok none)
      | .ok .custom => promptLoop transitions maxEntries .customRanks rest
      | .ok (.number n) =>
        match transitions[n - 1]? with
        | some tr => some (.ok (some (.entry tr.included)))
        | none => promptLoop transitions maxEntries .command rest
      | .ok .empty => promptLoop transitions maxEntries .command rest

/-- `prompt_user_selection` (src/main.rs) over a finite script of input lines
(each already trimmed, as `Prompt::read_line` returns them).  `none` means the
script ran out while the loop still waited for input; `some` wraps the
`anyhow::Result` of the Rust function: an error propagated by the `?` on
`Command::from_str`, or `Ok` with `None` for quit and `Some` for a
selection. -/
def promptUserSelection (transitions : List Transition) (maxEntries : Nat)
    (script : List (List Char)) : Option (Except CommandErr (Option UserSelection)) :=
  promptLoop transitions maxEntries .command script

/-- Claim C2 as stated: an input line that is not quit, not custom, not empty
and not a parseable positive integer is reported to the user and the selector
re-prompts with its state unaffected and without aborting — i.e. the run
continues exactly as on the remaining script. -/
def claimC2 : Prop :=
  ∀ (transitions : List Transition) (maxEntries : Nat) (input : List Char)
    (rest : List (List Char)),
    (∃ e, Command.fromStr input = .error e) →
    promptUserSelection transitions maxEntries (input :: rest) =
      promptUserSelection transitions maxEntries rest

/-- C2 fails on the code: on the unrecognized input `foo` the selector does
not re-prompt; the `?` on `Command::from_str` propagates the
`unrecognized command` error out of `prompt_user_selection` (and from there
out of `select_end` and `main`), aborting the program. -/
theorem claimC2_counterexample :
    ¬ claimC2 ∧
    promptUserSelection [] 400 ["foo".data, "q".data] =
      some (.error (.unrecognized "foo".data)) := by
  constructor
  · intro h
    have h1 := h [] 400 "foo".data ["q".data] ⟨.unrecognized "foo".data, by decide⟩
    revert h1
    decide
  · decide

/-- C2 amended: an input line whose lowercasing is none of the quit or custom
keywords, is non-empty, and does not parse as a nonzero integer makes
`Command::from_str` fail with `unrecognized command` on the lowercased input,
and the selector run aborts immediately with that error instead of
re-prompting. -/
theorem prompt_unrecognized_aborts (transitions : List Transition)
    (maxEntries : Nat) (input : List Char) (rest : List (List Char))
    (hq : ¬ (input.map Char.toLower = "q".data ∨ input.map Char.toLower = "quit".data ∨
             input.map Char.toLower = "exit".data))
    (hc : ¬ (input.map Char.toLower = "c".data ∨ input.map Char.toLower = "custom".data))
    (he : ¬ input.map Char.toLower = [])
    (hn : parseNonZeroUsize (input.map Char.toLower) = none) :
    Command.fromStr input = .error (.unrecognized (input.map Char.toLower)) ∧
    promptUserSelection transitions maxEntries (input :: rest) =
      some (.error (.unrecognized (input.map Char.toLower))) := by
  have hcmd : Command.fromStr input = .error (.unrecognized (input.map Char.toLower)) := by
    simp only [Command.fromStr]
    rw [if_neg hq, if_neg hc, if_neg he, hn]
  refine ⟨hcmd, ?_⟩
  simp only [promptUserSelection, promptLoop, hcmd]

/-- Witness for the amended C2 at a concrete input. -/
theorem prompt_unrecognized_aborts_witness :
    Command.fromStr "foo".data = .error (.unrecognized ("foo".data.map Char.toLower)) ∧
    promptUserSelection [] 400 ["foo".data] =
      some (.error (.unrecognized ("foo".data.map Char.toLower))) :=
  prompt_unrecognized_aborts [] 400 "foo".data []
    (by decide) (by decide) (by decide) (by decide)

theorem mapExcept_ok_of_forall {α β ε : Type} (f : α → Except ε β) (g : α → β)
    (l : List α) (h : ∀ a ∈ l, f a = .ok (g a)) :
    mapExcept f l = .ok (l.map g) := by
  induction l with
  | nil => rfl
  | cons a as ih =>
    have ha := h a (by simp)
    have hrest := ih (fun t ht => h t (List.mem_cons_of_mem _ ht))
    simp [mapExcept, ha, hrest]

/-- C9: in the custom-ranks sub-prompt — (1) a token parsing to a value above
the configured maximum is rejected with an error naming the offending value
and the configured bound; (2) such a token makes the whole entry fail; (3)
when every preceding token is valid, the error of the whole entry is that
`exceedsMax` error; (4) the entry succeeds exactly when every token is an
integer within the bound, yielding the parsed values in order; (5) after a
Custom command, a failing ranks line makes the selector re-prompt with the
same transitions and without returning new counts, while a succeeding line
returns the parsed values as the new target set. -/
theorem custom_targets_spec (line : List Char) (maxEntries : Nat) :
    (∀ (token : List Char) (n : Nat), parseUsize token = some n → n > maxEntries →
        parseTargetToken maxEntries token = .error (.exceedsMax n maxEntries)) ∧
    (∀ (token : List Char) (n : Nat), token ∈ splitWhitespace line →
        parseUsize token = some n → n > maxEntries →
        ∃ e, parseCustomTargets line maxEntries = .error e) ∧
    (∀ (pre post : List (List Char)) (token : List Char) (n : Nat),
        splitWhitespace line = pre ++ token :: post →
        (∀ t ∈ pre, ∃ m, parseUsize t = some m ∧ m ≤ maxEntries) →
        parseUsize token = some n → n > maxEntries →
        parseCustomTargets line maxEntries = .error (.exceedsMax n maxEntries)) ∧
    (∀ counts : List Nat,
        parseCustomTargets line maxEntries = .ok counts ↔
          List.Forall₂ (fun token n => parseUsize token = some n ∧ n ≤ maxEntries)
            (splitWhitespace line) counts) ∧
    (∀ (transitions : List Transition) (cmd : List Char) (rest : List (List Char)),
        Command.fromStr cmd = .ok .custom →
        ((∃ e, parseCustomTargets line maxEntries = .error e) →
          promptUserSelection transitions maxEntries (cmd :: line :: rest) =
            promptUserSelection transitions maxEntries rest) ∧
        (∀ counts, parseCustomTargets line maxEntries = .ok counts →
          promptUserSelection transitions maxEntries (cmd :: line :: rest) =
            some (.ok (some (.newCounts counts))))) := by
  have htok : ∀ (token : List Char) (n : Nat), parseUsize token = some n →
      n > maxEntries →
      parseTargetToken maxEntries token = .error (.exceedsMax n maxEntries) := by
    intro token n hp hgt
    unfold parseTargetToken
    rw [hp]
    dsimp only
    rw [if_pos hgt]
  refine ⟨htok, ?_, ?_, ?_, ?_⟩
  · intro token n hmem hp hgt
    exact mapExcept_error_of_mem _ _ token _ hmem (htok token n hp hgt)
  · intro pre post token n hsplit hpre hp hgt
    have hferr := htok token n hp hgt
    have hpreok : ∀ t ∈ pre, ∃ b, parseTargetToken maxEntries t = .ok b := by
      intro t ht
      obtain ⟨m, hm, hle⟩ := hpre t ht
      exact ⟨m, (parseTargetToken_eq_ok_iff maxEntries t m).mpr ⟨hm, hle⟩⟩
    rw [parseCustomTargets, hsplit]
    exact mapExcept_append_error _ pre token post _ hpreok hferr
  · intro counts
    rw [parseCustomTargets, mapExcept_eq_ok_iff]
    constructor
    · intro h
      exact h.imp (fun a b hab => (parseTargetToken_eq_ok_iff _ a b).mp hab)
    · intro h
      exact h.imp (fun a b hab => (parseTargetToken_eq_ok_iff _ a b).mpr hab)
  · intro transitions cmd rest hcmd
    constructor
    · rintro ⟨e, he⟩
      simp only [promptUserSelection, promptLoop, hcmd, he]
    · intro counts hok
      simp only [promptUserSelection, promptLoop, hcmd, hok]

/-- Witness for C9 on the example from the spec: with a configured maximum of
400, the custom input `10 999999999` is rejected as a whole with an error
naming the value 999999999 and the bound 400. -/
theorem custom_targets_spec_witness :
    parseCustomTargets "10 999999999".data 400 =
      .error (.exceedsMax 999999999 400) :=
  (custom_targets_spec "10 999999999".data 400).2.2.1 ["10".data] []
    "999999999".data 999999999 (by decide)
    (by
      intro t ht
      rw [List.mem_singleton] at ht
      subst ht
      exact ⟨10, by decide, by decide⟩)
    (by decide) (by decide)

/-- Rust `str::split(',')`: the substrings between commas, empty pieces kept
(the empty string gives one empty piece, consecutive commas give empty
pieces). -/
def splitOnChar (sep : Char) : List Char → List (List Char)
  | [] => [[]]
  | c :: rest =>
    let tail := splitOnChar sep rest
    if c = sep then [] :: tail
    else
      match tail with
      | [] => [[c]]
      | g :: gs => (c :: g) :: gs

/-- Strip one trailing carriage return, as Rust `str::lines` does for lines
terminated by CRLF. -/
def stripCR (l : List Char) : List Char :=
  if l.getLast? = some '\r' then l.dropLast else l

/-- Helper for `rustLines` over the pieces of a split on the newline
character: every piece except the final one was newline-terminated and loses
one trailing carriage return; a final empty piece (the text was empty or
ended in a newline) yields no line; a final non-empty piece is kept as is. -/
def rustLinesAux : List (List Char) → List (List Char)
  | [] => []
  | [last] => if last = [] then [] else [last]
  | part :: rest => stripCR part :: rustLinesAux rest

/-- Rust `str::lines`. -/
def rustLines (s : List Char) : List (List Char) :=
  rustLinesAux (splitOnChar '\n' s)

/-- The single error of `BeetCommand::new` in src/main.rs: the structured
content of `duplicate commas in timeless args`. -/
inductive NewErr where
  | duplicateCommas
deriving DecidableEq, Repr

/-- `BeetCommand::new` in src/main.rs: split the timeless args on commas and
each piece into lines; a piece with no lines fails construction with the
`duplicate commas` error.  The result is the `timeless_filter_sets` field. -/
def BeetCommandMain.new (timeless_args : List Char) :
    Except NewErr (List (List (List Char))) :=
  mapExcept
    (fun filter_set =>
      if rustLines filter_set = [] then .error .duplicateCommas
      else .ok (rustLines filter_set))
    (splitOnChar ',' timeless_args)

/-- `BeetCommand::new` in src/beet_command.rs: the same split, but a piece
with no lines is silently dropped by `filter_map` and construction never
fails. -/
def BeetCommandLib.new (timeless_args : List Char) : List (List (List Char)) :=
  (splitOnChar ',' timeless_args).filterMap
    (fun filter_set =>
      if rustLines filter_set = [] then none
      else some (rustLines filter_set))

/-- One filter group inside `new_list_command`: without an extra filter, the
group splits via `split_last` into the leading tokens and its own last token
(the Rust `expect` aborts on an empty group; constructed specs always have
non-empty groups, so the `getLastD` default is never read); with an extra
filter, the whole group is emitted and the extra filter becomes the trailing
token.  A non-final group has a comma appended to its trailing token. -/
def emitGroup (g : List (List Char)) (extra : Option (List Char)) (isLast : Bool) :
    List (List Char) :=
  let fsLast : List (List Char) × List Char :=
    match extra with
    | some x => (g, x)
    | none => (g.dropLast, g.getLastD [])
  fsLast.1 ++ [if isLast then fsLast.2 else fsLast.2 ++ ",".data]

/-- The group loop of `new_list_command`: `index + 1 == len` marks the final
group. -/
def encodeChain (extra : Option (List Char)) :
    List (List (List Char)) → List (List Char)
  | [] => []
  | [g] => emitGroup g extra true
  | g :: rest => emitGroup g extra false ++ encodeChain extra rest

/-- `new_list_command` in src/main.rs, as the literal ordered argument list
after the program path: a leading `list` token, then the encoded groups. -/
def newListCommandArgsMain (sets : List (List (List Char)))
    (extra : Option (List Char)) : List (List Char) :=
  "list".data :: encodeChain extra sets

/-- `new_list_command` in src/beet_command.rs: identical, except that an
extra filter together with an empty group list is emitted on its own. -/
def newListCommandArgsLib (sets : List (List (List Char)))
    (extra : Option (List Char)) : List (List Char) :=
  "list".data ::
    (match extra, sets with
     | some x, [] => [x]
     | _, _ => encodeChain extra sets)

/-- Claim C1 as stated: for a spec with at least one group, the encoding with
an extra filter is the no-extra encoding with its final token — the final
group’s own last token — replaced by the extra filter: the extra appears
exactly once, at the very end, and interior groups are emitted exactly as in
the no-extra encoding. -/
def claimC1 : Prop :=
  ∀ (sets : List (List (List Char))) (x : List Char), sets ≠ [] →
    newListCommandArgsMain sets (some x) =
      (newListCommandArgsMain sets none).dropLast ++ [x]

/-- C1 fails on the code: for the two groups `[[a, b], [c]]` with extra `x`
the encoder emits `list a b x, c x` — the extra filter is appended once per
group, comma-joined for the non-final group, and no group token is replaced —
whereas C1 predicts `list a b, x`. -/
theorem claimC1_counterexample :
    ¬ claimC1 ∧
    newListCommandArgsMain [["a".data, "b".data], ["c".data]] (some "x".data) =
      ["list".data, "a".data, "b".data, ("x".data ++ ",".data), "c".data, "x".data] ∧
    (newListCommandArgsMain [["a".data, "b".data], ["c".data]] none).dropLast
        ++ ["x".data] =
      ["list".data, "a".data, ("b".data ++ ",".data), "x".data] := by
  refine ⟨?_, by decide, by decide⟩
  intro h
  have h1 := h [["a".data, "b".data], ["c".data]] "x".data (by decide)
  revert h1
  decide

/-- The closed form of the encoding with an extra filter: each group
contributes all of its own tokens followed by the extra filter, comma-joined
when further groups follow. -/
def encodeChainExtra (x : List Char) : List (List (List Char)) → List (List Char)
  | [] => []
  | [g] => g ++ [x]
  | g :: rest => (g ++ [x ++ ",".data]) ++ encodeChainExtra x rest

theorem encodeChain_some_eq (x : List Char) (sets : List (List (List Char))) :
    encodeChain (some x) sets = encodeChainExtra x sets := by
  induction sets with
  | nil => rfl
  | cons g rest ih =>
    cases rest with
    | nil => simp [encodeChain, encodeChainExtra, emitGroup]
    | cons h t =>
      simp [encodeChain, encodeChainExtra, emitGroup, ih]

theorem encodeChainExtra_getLast (x : List Char) (sets : List (List (List Char)))
    (h : sets ≠ []) :
    (encodeChainExtra x sets).getLast? = some x := by
  induction sets with
  | nil => exact absurd rfl h
  | cons g rest ih =>
    cases rest with
    | nil => simp [encodeChainExtra]
    | cons g2 t =>
      have ih2 := ih (by simp)
      have hne : encodeChainExtra x (g2 :: t) ≠ [] := by
        intro h0
        rw [h0] at ih2
        simp at ih2
      have hstep : encodeChainExtra x (g :: g2 :: t) =
          (g ++ [x ++ ",".data]) ++ encodeChainExtra x (g2 :: t) := by
        simp [encodeChainExtra]
      rw [hstep, List.getLast?_append_of_ne_nil _ hne, ih2]

/-- C1 amended: with an extra filter the encoder appends the extra filter once
per group — after all of the group’s own tokens, comma-joined when further
groups follow — so the extra filter is the very last argument but also closes
every interior group, and no group token is replaced or dropped; for a
non-empty group list the src/beet_command.rs revision encodes identically. -/
theorem newListCommand_extra_per_group (sets : List (List (List Char))) (x : List Char) :
    newListCommandArgsMain sets (some x) = "list".data :: encodeChainExtra x sets ∧
    (sets ≠ [] → (newListCommandArgsMain sets (some x)).getLast? = some x) ∧
    (sets ≠ [] → newListCommandArgsLib sets (some x) = newListCommandArgsMain sets (some x)) := by
  refine ⟨?_, ?_, ?_⟩
  · rw [newListCommandArgsMain, encodeChain_some_eq]
  · intro h
    rw [newListCommandArgsMain, encodeChain_some_eq]
    have hne : encodeChainExtra x sets ≠ [] := by
      intro h0
      have := encodeChainExtra_getLast x sets h
      rw [h0] at this
      simp at this
    have : ("list".data :: encodeChainExtra x sets) = ["list".data] ++ encodeChainExtra x sets := rfl
    rw [this, List.getLast?_append_of_ne_nil _ hne]
    exact encodeChainExtra_getLast x sets h
  · intro h
    cases sets with
    | nil => exact absurd rfl h
    | cons g rest => rfl

/-- Witness for the amended C1: with one group `[a]` and extra `x`, the
encoding ends in the extra filter. -/
theorem newListCommand_extra_per_group_witness :
    (newListCommandArgsMain [["a".data]] (some "x".data)).getLast? = some "x".data :=
  (newListCommand_extra_per_group [["a".data]] "x".data).2.1 (by decide)

/-- A raw filter string produces an empty group when some comma-separated
piece of it splits into no lines. -/
def producesEmptyGroup (s : List Char) : Prop :=
  ∃ part ∈ splitOnChar ',' s, rustLines part = []

/-- The silent-drop behavior C5 rules out: an empty group arises and the
library constructor returns fewer groups than the split produced. -/
def emptyGroupSilentlyDropped (s : List Char) : Prop :=
  producesEmptyGroup s ∧
  (BeetCommandLib.new s).length < (splitOnChar ',' s).length

/-- Claim C5 as stated: every raw string that produces an empty group fails
construction with a configuration error, and the empty group is never
silently dropped — for both construction sites, the src/main.rs constructor
(which can fail) and the src/beet_command.rs constructor (which cannot fail,
so not dropping is the only way the claim can hold of it). -/
def claimC5 : Prop :=
  ∀ s : List Char, producesEmptyGroup s →
    (∃ e, BeetCommandMain.new s = .error e) ∧ ¬ emptyGroupSilentlyDropped s

/-- C5 fails on the library constructor (src/beet_command.rs): on the empty
string it does not fail — it silently drops the empty group and returns an
empty filter-set list.  (The src/main.rs constructor does reject it; see the
amended theorem.) -/
theorem claimC5_counterexample :
    ¬ claimC5 ∧ BeetCommandLib.new "".data = [] := by
  refine ⟨?_, by decide⟩
  intro h
  have hpe : producesEmptyGroup "".data := ⟨[], by decide, by decide⟩
  exact (h "".data hpe).2 ⟨hpe, by decide⟩

theorem length_filterMap_lt_of_mem_none {α β : Type} (f : α → Option β)
    (l : List α) (a : α) (ha : a ∈ l) (hf : f a = none) :
    (l.filterMap f).length < l.length := by
  induction l with
  | nil => cases ha
  | cons b bs ih =>
    rcases List.mem_cons.mp ha with rfl | hmem
    · simp only [List.filterMap_cons, hf, List.length_cons]
      have := List.length_filterMap_le f bs
      omega
    · cases hfb : f b with
      | none =>
        simp only [List.filterMap_cons, hfb, List.length_cons]
        have := ih hmem
        omega
      | some v =>
        simp only [List.filterMap_cons, hfb, List.length_cons]
        have := ih hmem
        omega

/-- C5 amended: the binary constructor (src/main.rs) rejects every input that
produces an empty group with the `duplicate commas` configuration error and
accepts any other input with all split groups kept; the library revision
(src/beet_command.rs) never fails — it silently drops every empty group, so
an empty group strictly shrinks its group list, and all surviving groups are
non-empty. -/
theorem filter_spec_construction (s : List Char) :
    (producesEmptyGroup s → BeetCommandMain.new s = .error .duplicateCommas) ∧
    (¬ producesEmptyGroup s →
      BeetCommandMain.new s = .ok ((splitOnChar ',' s).map rustLines)) ∧
    (producesEmptyGroup s →
      (BeetCommandLib.new s).length < (splitOnChar ',' s).length) ∧
    (∀ g ∈ BeetCommandLib.new s, g ≠ []) := by
  refine ⟨?_, ?_, ?_, ?_⟩
  · rintro ⟨part, hm, hempty⟩
    have hferr :
        (if rustLines part = [] then (Except.error NewErr.duplicateCommas)
         else Except.ok (rustLines part)) = Except.error NewErr.duplicateCommas := by
      rw [if_pos hempty]
    unfold BeetCommandMain.new
    obtain ⟨e2, h2⟩ :=
      mapExcept_error_of_mem
        (fun filter_set =>
          if rustLines filter_set = [] then Except.error NewErr.duplicateCommas
          else Except.ok (rustLines filter_set))
        (splitOnChar ',' s) part NewErr.duplicateCommas hm hferr
    cases e2
    exact h2
  · intro hno
    unfold BeetCommandMain.new
    apply mapExcept_ok_of_forall
    intro part hm
    have hne : ¬ rustLines part = [] := fun hc => hno ⟨part, hm, hc⟩
    rw [if_neg hne]
  · rintro ⟨part, hm, hempty⟩
    unfold BeetCommandLib.new
    apply length_filterMap_lt_of_mem_none _ _ part hm
    rw [if_pos hempty]
  · intro g hg
    rw [BeetCommandLib.new, List.mem_filterMap] at hg
    obtain ⟨part, -, hf⟩ := hg
    by_cases hc : rustLines part = []
    · rw [if_pos hc] at hf
      cases hf
    · rw [if_neg hc] at hf
      injection hf with hf
      rw [hf] at hc
      exact hc

/-- Witness for the amended C5: consecutive commas are rejected by the
src/main.rs constructor. -/
theorem filter_spec_construction_witness :
    BeetCommandMain.new "a,,b".data = .error .duplicateCommas :=
  (filter_spec_construction "a,,b".data).1 ⟨[], by decide, by decide⟩

/-- C8: a line of length at most 20 always fails to parse, regardless of
content, with the `entry too short` error; a line of length above 20 parses
into a `DateEntry` whose date is exactly the first 10 characters (so of
length 10) and whose entry is exactly the characters from offset 20 on —
characters 10 to 19 are skipped without validation. -/
theorem date_entry_parse_spec (s : List Char) :
    (s.length ≤ 20 → DateEntry.tryFrom s = .error ("entry too short: ".data ++ s)) ∧
    (20 < s.length →
      DateEntry.tryFrom s = .ok { date := s.take 10, entry := s.drop 20 } ∧
      (s.take 10).length = 10) := by
  constructor
  · intro h
    rw [DateEntry.tryFrom, if_neg (by omega)]
  · intro h
    refine ⟨?_, ?_⟩
    · rw [DateEntry.tryFrom, if_pos h]
    · rw [List.length_take]
      omega

/-- Witness for C8 at concrete inputs: a 42-character line parses into its
first 10 characters and its tail from offset 20; a 20-character line fails. -/
theorem date_entry_parse_spec_witness :
    (DateEntry.tryFrom "2024-01-01 12:34:56 Artist - Album - Title".data =
      .ok { date := ("2024-01-01 12:34:56 Artist - Album - Title".data).take 10,
            entry := ("2024-01-01 12:34:56 Artist - Album - Title".data).drop 20 } ∧
     (("2024-01-01 12:34:56 Artist - Album - Title".data).take 10).length = 10) ∧
    DateEntry.tryFrom "2024-01-01 12:34:56 ".data =
      .error ("entry too short: ".data ++ "2024-01-01 12:34:56 ".data) :=
  ⟨(date_entry_parse_spec "2024-01-01 12:34:56 Artist - Album - Title".data).2 (by decide),
   (date_entry_parse_spec "2024-01-01 12:34:56 ".data).1 (by decide)⟩

/-- The error of the parsing stage of `query_timeless`: the `anyhow` context
names the 1-based line number of the offending line. -/
inductive QueryErr where
  | lineParse (lineNumber : Nat) (line : List Char)
deriving DecidableEq, Repr

/-- The parsing stage of `query_timeless` (src/beet_command.rs, identical in
src/main.rs): enumerate the output lines, truncate with
`take(self.max_entries)`, parse each line with `DateEntry::try_from` — the
error contextualized with `line [number + 1]` — and collect into a single
Result. -/
def queryTimelessParse (outputLines : List (List Char)) (maxEntries : Nat) :
    Except QueryErr (List DateEntry) :=
  mapExcept
    (fun p =>
      match DateEntry.tryFrom p.2 with
      | .ok e => .ok e
      | .error _ => .error (.lineParse (p.1 + 1) p.2))
    (outputLines.enum.take maxEntries)

theorem enumTake_take_eq (l : List (List Char)) (n : Nat) :
    (l.take n).enum.take n = l.enum.take n := by
  apply List.ext_getElem?
  intro i
  by_cases hi : i < n
  · rw [List.getElem?_take, List.getElem?_take, if_pos hi, if_pos hi,
        List.getElem?_enum, List.getElem?_enum, List.getElem?_take, if_pos hi]
  · rw [List.getElem?_take, List.getElem?_take, if_neg hi, if_neg hi]

/-- C10: the recent-entries fetch truncates before parsing — the parse result
coincides with the parse of only the first `max_entries` output lines, a
successful result has at most `max_entries` entries, and any two outputs that
agree on their first `max_entries` lines parse identically (so a malformed
line at a position beyond `max_entries` can never fail the fetch). -/
theorem query_timeless_truncates (outputLines : List (List Char)) (maxEntries : Nat) :
    queryTimelessParse outputLines maxEntries =
      queryTimelessParse (outputLines.take maxEntries) maxEntries ∧
    (∀ l, queryTimelessParse outputLines maxEntries = .ok l →
      l.length ≤ maxEntries) ∧
    (∀ outputLines2 : List (List Char),
      outputLines2.take maxEntries = outputLines.take maxEntries →
      queryTimelessParse outputLines2 maxEntries =
        queryTimelessParse outputLines maxEntries) := by
  have key : ∀ ls : List (List Char),
      queryTimelessParse ls maxEntries =
        queryTimelessParse (ls.take maxEntries) maxEntries := by
    intro ls
    rw [queryTimelessParse, queryTimelessParse, enumTake_take_eq]
  refine ⟨key outputLines, ?_, ?_⟩
  · intro l hok
    rw [queryTimelessParse, mapExcept_eq_ok_iff] at hok
    have hlen := hok.length_eq
    rw [← hlen, List.length_take]
    omega
  · intro ls2 heq
    rw [key ls2, key outputLines, heq]

/-- Witness for C10 at concrete inputs: with `max_entries = 1`, appending a
malformed second line does not change the parse result. -/
theorem query_timeless_truncates_witness :
    queryTimelessParse
        ["2024-01-01 12:34:56 Artist - Album - Title".data, "short".data] 1 =
      queryTimelessParse ["2024-01-01 12:34:56 Artist - Album - Title".data] 1 :=
  (query_timeless_truncates ["2024-01-01 12:34:56 Artist - Album - Title".data] 1).2.2
    ["2024-01-01 12:34:56 Artist - Album - Title".data, "short".data] (by decide)

end BeetSmart
